import Mathlib

/-!
Verification development for the dependency-group resolution core of
`src/pdm/project/project_file.py` (class `PyProject`).

The manifest (a parsed `pyproject.toml`) is modelled as a nested key-ordered
document of TOML values.  Python/tomlkit values relevant to this code are
strings, arrays and tables; tomlkit nodes carry an `unwrap()` method turning
them into plain values, so the model works with plain values directly and the
duck-typed `deps.unwrap() if hasattr(deps, "unwrap") else deps` calls in the
source are identities here.  Python `dict`s preserve insertion order and have
unique keys; tables are modelled as ordered association lists, looked up by
first match.
-/

set_option maxHeartbeats 1000000

/-- TOML/JSON-like values as manipulated by `project_file.py`: plain strings,
arrays and (ordered) tables. -/
inductive Toml where
  | str : String → Toml
  | arr : List Toml → Toml
  | table : List (String × Toml) → Toml

def consPair_eq_key {k k' : String} {v v' : Toml} {as bs : List (String × Toml)}
    (h : (k, v) :: as = (k', v') :: bs) : k = k' := by
  cases h; rfl

def consPair_eq_val {k k' : String} {v v' : Toml} {as bs : List (String × Toml)}
    (h : (k, v) :: as = (k', v') :: bs) : v = v' := by
  cases h; rfl

def consPair_eq_tail {k k' : String} {v v' : Toml} {as bs : List (String × Toml)}
    (h : (k, v) :: as = (k', v') :: bs) : as = bs := by
  cases h; rfl

mutual

def tomlDecEq : (a b : Toml) → Decidable (a = b)
  | .str a, .str b =>
    match String.decEq a b with
    | isTrue h => isTrue (by rw [h])
    | isFalse h => isFalse (fun hh => h (by injection hh))
  | .str _, .arr _ => isFalse (fun h => Toml.noConfusion h)
  | .str _, .table _ => isFalse (fun h => Toml.noConfusion h)
  | .arr _, .str _ => isFalse (fun h => Toml.noConfusion h)
  | .arr a, .arr b =>
    match tomlListDecEq a b with
    | isTrue h => isTrue (by rw [h])
    | isFalse h => isFalse (fun hh => h (by injection hh))
  | .arr _, .table _ => isFalse (fun h => Toml.noConfusion h)
  | .table _, .str _ => isFalse (fun h => Toml.noConfusion h)
  | .table _, .arr _ => isFalse (fun h => Toml.noConfusion h)
  | .table a, .table b =>
    match tomlTableDecEq a b with
    | isTrue h => isTrue (by rw [h])
    | isFalse h => isFalse (fun hh => h (by injection hh))

def tomlListDecEq : (a b : List Toml) → Decidable (a = b)
  | [], [] => isTrue rfl
  | [], _ :: _ => isFalse (fun h => List.noConfusion h)
  | _ :: _, [] => isFalse (fun h => List.noConfusion h)
  | a :: as, b :: bs =>
    match tomlDecEq a b with
    | isFalse h => isFalse (fun hh => h (by injection hh))
    | isTrue h1 =>
      match tomlListDecEq as bs with
      | isTrue h2 => isTrue (by rw [h1, h2])
      | isFalse h2 => isFalse (fun hh => h2 (by injection hh))

def tomlTableDecEq : (a b : List (String × Toml)) → Decidable (a = b)
  | [], [] => isTrue rfl
  | [], _ :: _ => isFalse (fun h => List.noConfusion h)
  | _ :: _, [] => isFalse (fun h => List.noConfusion h)
  | (k, v) :: as, (k', v') :: bs =>
    match String.decEq k k' with
    | isFalse h => isFalse (fun hh => h (consPair_eq_key hh))
    | isTrue h1 =>
      match tomlDecEq v v' with
      | isFalse h => isFalse (fun hh => h (consPair_eq_val hh))
      | isTrue h2 =>
        match tomlTableDecEq as bs with
        | isTrue h3 => isTrue (by rw [h1, h2, h3])
        | isFalse h3 => isFalse (fun hh => h3 (consPair_eq_tail hh))

end

instance : DecidableEq Toml := tomlDecEq

instance {ε α : Type} [DecidableEq ε] [DecidableEq α] : DecidableEq (Except ε α)
  | .ok a, .ok b =>
    match decEq a b with
    | isTrue h => isTrue (by rw [h])
    | isFalse h => isFalse (fun hh => h (by injection hh))
  | .ok _, .error _ => isFalse (fun h => Except.noConfusion h)
  | .error _, .ok _ => isFalse (fun h => Except.noConfusion h)
  | .error a, .error b =>
    match decEq a b with
    | isTrue h => isTrue (by rw [h])
    | isFalse h => isFalse (fun hh => h (by injection hh))

/-- A document (or table body): the ordered key/value pairs of a mapping. -/
abbrev Doc := List (String × Toml)

/-- First-match association-list lookup; models Python `d[k]` / `k in d` on
insertion-ordered dicts with unique keys. -/
def lookupKey {β : Type} : List (String × β) → String → Option β
  | [], _ => none
  | (k, v) :: rest, key => if k == key then some v else lookupKey rest key

/-- Models Python `d.get(k, default)`. -/
def getValD (kvs : Doc) (k : String) (d : Toml) : Toml :=
  (lookupKey kvs k).getD d

/-- Coerce a value to table items.  In the source the table positions read
below always hold tables in a well-formed manifest; a non-table value would
make the subsequent `.items()`/`.get` calls raise `AttributeError`, which is
outside the behaviour described by the spec, so the model treats such a value
as an absent table. -/
def asTable : Toml → Doc
  | .table t => t
  | _ => []

/-- Models `d.get(k, {})` followed by use as a table. -/
def getTableD (kvs : Doc) (k : String) : Doc :=
  asTable (getValD kvs k (Toml.table []))

/-- Value view of the `settings` property (`self._data.setdefault("tool",
{}).setdefault("pdm", {})`): the contents of the `tool.pdm` table, empty when
absent.  The accessor's side effect on the document is modelled separately by
`settingsState`. -/
def settingsView (doc : Doc) : Doc :=
  getTableD (getTableD doc "tool") "pdm"

/-- Value view of the `metadata` property (`self._data.setdefault("project",
{})`). -/
def metadataView (doc : Doc) : Doc :=
  getTableD doc "project"

/-- The legacy table read by `dev_dependencies`:
`self.settings.get("dev-dependencies", {})`. -/
def legacyGroups (doc : Doc) : Doc :=
  getTableD (settingsView doc) "dev-dependencies"

/-- The modern (PEP 735) table read by `dev_dependencies`:
`self._data.get("dependency-groups", {})`. -/
def modernGroups (doc : Doc) : Doc :=
  getTableD doc "dependency-groups"

/-- The `project.optional-dependencies` table:
`self.metadata.get("optional-dependencies", {})`. -/
def optionalDeps (doc : Doc) : Doc :=
  getTableD (metadataView doc) "optional-dependencies"

/-- Modelled from the spec: `normalize_name` lives in `pdm.utils`, which is
not under `src/`; per the spec group names are "case/format-normalized
(lowercased, separators canonicalized) before comparison or merge".  Maximal
runs of non-alphanumeric characters are replaced by a single `-` and letters
are lowercased. -/
def normLoop : List Char → Bool → List Char
  | [], _ => []
  | c :: rest, afterSep =>
    if c.isAlphanum then c.toLower :: normLoop rest false
    else if afterSep then normLoop rest true
    else '-' :: normLoop rest true

/-- Modelled from the spec: see `normLoop`. -/
def normalize_name (s : String) : String :=
  String.mk (normLoop s.data false)

/-- The merged view being built by `dev_dependencies`: an insertion-ordered
mapping from normalized group name to its list of entries. -/
abbrev Groups := List (String × List Toml)

/-- Does the merged view already contain this (normalized) name?  Models
`group in groups`. -/
def hasGroup (g : Groups) (n : String) : Bool :=
  (lookupKey g n).isSome

/-- Models `groups.setdefault(group, []).extend(ds)`: append `ds` to the
entry list of `n` when present, otherwise insert `(n, ds)` at the end. -/
def extendGroup (g : Groups) (n : String) (ds : List Toml) : Groups :=
  if hasGroup g n then
    g.map (fun kv => if kv.1 == n then (kv.1, kv.2 ++ ds) else kv)
  else g ++ [(n, ds)]

/-- One iteration of the legacy loop in `dev_dependencies` (lines 124-131):
normalize the name, treat a list value as the entry list and wrap any other
value as a single entry, then `setdefault(...).extend/append`. -/
def addLegacyGroup (g : Groups) (p : String × Toml) : Groups :=
  match p.2 with
  | .arr vs => extendGroup g (normalize_name p.1) vs
  | v => extendGroup g (normalize_name p.1) [v]

/-- The whole legacy loop of `dev_dependencies`. -/
def addLegacyAll (acc : Groups) : List (String × Toml) → Groups
  | [] => acc
  | p :: rest => addLegacyAll (addLegacyGroup acc p) rest

/-- The merged view after the legacy phase of `dev_dependencies`. -/
def legacyMerged (doc : Doc) : Groups :=
  addLegacyAll [] (legacyGroups doc)

/-- Models `isinstance(dep, dict) and "include-group" in dep` followed by
`dep["include-group"]`. -/
def isIncludeRef : Toml → Option Toml
  | .table kvs => lookupKey kvs "include-group"
  | _ => none

/-- Python equality between a table value and a `str` group name: only a
string value can equal a string. -/
def nameMatches (v : Toml) (k : String) : Bool :=
  match v with
  | .str s => s == k
  | _ => false

/-- Models `included_group in all_available_groups` where the right-hand side
is a set of raw (non-normalized) group-name strings. -/
def memberOfNames (v : Toml) (names : List String) : Bool :=
  names.any (nameMatches v)

/-- The validation namespace built in `dev_dependencies` (lines 146-147):
raw legacy group names plus raw `optional-dependencies` group names.  The
source rebuilds this set inside the loop, but it does not change between
iterations. -/
def availableNames (doc : Doc) : List String :=
  (legacyGroups doc).map Prod.fst ++ (optionalDeps doc).map Prod.fst

/-- The validation loop over a modern group's entry list (lines 142-152):
raise on the first `{include-group: X}` entry whose `X` is not in the
namespace.  The error payload is the missing-group value interpolated into
`PdmUsageError("Dependency group '...' not found")`. -/
def validateDeps (avail : List String) : List Toml → Except Toml Unit
  | [] => .ok ()
  | d :: rest =>
    match isIncludeRef d with
    | some ig =>
      if memberOfNames ig avail then validateDeps avail rest else .error ig
    | none => validateDeps avail rest

/-- One iteration of the modern loop of `dev_dependencies` (lines 135-155):
skip the group when its normalized name is already present, otherwise
validate (list values only) and assign the entry list verbatim. -/
def addModernGroup (avail : List String) (g : Groups) (p : String × Toml) :
    Except Toml Groups :=
  if hasGroup g (normalize_name p.1) then .ok g
  else
    match p.2 with
    | .arr vs =>
      match validateDeps avail vs with
      | .ok _ => .ok (g ++ [(normalize_name p.1, vs)])
      | .error e => .error e
    | .str s => .ok (g ++ [(normalize_name p.1, [Toml.str s])])
    | .table t => .ok (g ++ [(normalize_name p.1, [Toml.table t])])

/-- The whole modern loop of `dev_dependencies`, propagating the first
raised error. -/
def foldGroups (avail : List String) (acc : Groups) :
    List (String × Toml) → Except Toml Groups
  | [] => .ok acc
  | p :: rest =>
    match addModernGroup avail acc p with
    | .ok acc2 => foldGroups avail acc2 rest
    | .error e => .error e

/-- The `dev_dependencies` property (lines 113-157): seed the result from the
legacy table, then add non-shadowed modern groups, validating their
`include-group` references; an unresolved reference aborts the whole
computation with the missing group's value. -/
def dev_dependencies (doc : Doc) : Except Toml Groups :=
  foldGroups (availableNames doc) (legacyMerged doc) (modernGroups doc)

/-- The method `get_dependency_group_safe` (lines 86-111): exact-name lookup
in `optional-dependencies`, then the legacy table, then the modern table,
returning an empty list when the name is found nowhere. -/
def get_dependency_group_safe (doc : Doc) (group_name : String) : Toml :=
  match lookupKey (optionalDeps doc) group_name with
  | some v => v
  | none =>
    match lookupKey (legacyGroups doc) group_name with
    | some v => v
    | none =>
      match lookupKey (modernGroups doc) group_name with
      | some v => v
      | none => .arr []

/-- The `dependency_groups` property (lines 57-84):
`self._data.setdefault("dependency-groups", {})`, returning the stored value
and the possibly-updated document.  The source then monkey-patches an `item`
accessor onto the returned table object; that patch changes how missing keys
are later materialized through `item()` and does not change the table's
content, so it has no counterpart in this value-level model. -/
def dependency_groups (doc : Doc) : Toml × Doc :=
  match lookupKey doc "dependency-groups" with
  | some v => (v, doc)
  | none => (.table [], doc ++ [("dependency-groups", .table [])])

/-- Replace the (first) binding of key `k` with `v`. -/
def setKey (kvs : Doc) (k : String) (v : Toml) : Doc :=
  match kvs with
  | [] => []
  | (k', v') :: rest =>
    if k' == k then (k', v) :: rest else (k', v') :: setKey rest k v

/-- State-passing model of the `settings` property (lines 159-161):
`self._data.setdefault("tool", {}).setdefault("pdm", {})`.  The inner
`setdefault` mutates the `tool` table in place, which is reflected back into
the document.  A non-table value at `tool` or `tool.pdm` would make the
source raise `AttributeError`; the model returns an empty view there. -/
def settingsState (doc : Doc) : Doc × Doc :=
  match lookupKey doc "tool" with
  | some (.table t) =>
    match lookupKey t "pdm" with
    | some (.table p) => (p, doc)
    | some _ => ([], doc)
    | none => ([], setKey doc "tool" (.table (t ++ [("pdm", .table [])])))
  | some _ => ([], doc)
  | none => ([], doc ++ [("tool", .table [("pdm", .table [])])])

/-- State-passing model of the `metadata` property (lines 53-55):
`self._data.setdefault("project", {})`.  A present key, table or not, is
returned with the document untouched; an absent key inserts an empty table at
the end. -/
def metadataState (doc : Doc) : Doc × Doc :=
  match lookupKey doc "project" with
  | some (.table t) => (t, doc)
  | some _ => ([], doc)
  | none => ([], doc ++ [("project", .table [])])

/-- The helper `_remove_empty_tables` (lines 15-20), acting on a table's
items: recurse into table values, then delete any table that is empty after
the recursion.  The source does not recurse into arrays. -/
def remove_empty_tables : Doc → Doc
  | [] => []
  | (k, .table sub) :: rest =>
    if (remove_empty_tables sub).isEmpty then remove_empty_tables rest
    else (k, .table (remove_empty_tables sub)) :: remove_empty_tables rest
  | (k, v) :: rest => (k, v) :: remove_empty_tables rest

/-- No table entry reachable through nested tables is empty. -/
def noEmptyTables : Doc → Bool
  | [] => true
  | (_, .table sub) :: rest => !sub.isEmpty && noEmptyTables sub && noEmptyTables rest
  | _ :: rest => noEmptyTables rest

/-- The cleanup step of `write` (lines 41-45) applied to the `project`
subtree: `_remove_empty_tables(self._data.get("project", {}))` mutates the
`project` table in place when it exists. -/
def cleanAtProject (doc : Doc) : Doc :=
  doc.map (fun kv =>
    if kv.1 == "project" then
      match kv.2 with
      | .table t => (kv.1, Toml.table (remove_empty_tables t))
      | v => (kv.1, v)
    else kv)

/-- The cleanup step of `write` applied to the `tool.pdm` subtree:
`_remove_empty_tables(self._data.get("tool", {}).get("pdm", {}))`. -/
def cleanAtToolPdm (doc : Doc) : Doc :=
  doc.map (fun kv =>
    if kv.1 == "tool" then
      match kv.2 with
      | .table t =>
        (kv.1, Toml.table (t.map (fun kv2 =>
          if kv2.1 == "pdm" then
            match kv2.2 with
            | .table p => (kv2.1, Toml.table (remove_empty_tables p))
            | v => (kv2.1, v)
          else kv2)))
      | v => (kv.1, v)
    else kv)

/-- The document normalization performed by `write` before persisting. -/
def writeNormalize (doc : Doc) : Doc :=
  cleanAtToolPdm (cleanAtProject doc)

/-- Hexadecimal digit characters, lowercase (Python's `hexdigest` is
lowercase). -/
def hexDigitChar (n : Nat) : Char :=
  if n < 10 then Char.ofNat (48 + n) else Char.ofNat (87 + n)

/-- Four-digit hexadecimal rendering, for string escapes. -/
def hex4 (n : Nat) : String :=
  String.mk [hexDigitChar (n / 4096 % 16), hexDigitChar (n / 256 % 16),
    hexDigitChar (n / 16 % 16), hexDigitChar (n % 16)]

/-- Modelled from the spec: the source serializes with the Python standard
library (`json.dumps(dump_data, sort_keys=True)`), which is outside the
repository; the spec requires "a canonical, key-sorted textual form".  JSON
string escaping: quotes and backslashes are escaped, characters outside
printable ASCII are `\uXXXX`-escaped. -/
def jsonEsc (c : Char) : String :=
  if c = '"' then "\\\""
  else if c = '\\' then "\\\\"
  else if c.toNat < 32 || c.toNat > 126 then "\\u" ++ hex4 c.toNat
  else String.singleton c

/-- A JSON string literal. -/
def jsonQuote (s : String) : String :=
  "\"" ++ String.join (s.data.map jsonEsc) ++ "\""

/-- Comma-space separated join, as produced by `json.dumps`'s default
separators. -/
def commaJoin : List String → String
  | [] => ""
  | [s] => s
  | s :: rest => s ++ ", " ++ commaJoin rest

/-- Insertion into a key-sorted list of rendered key/value pairs. -/
def insSorted (p : String × String) : List (String × String) → List (String × String)
  | [] => [p]
  | q :: rest => if p.1 ≤ q.1 then p :: q :: rest else q :: insSorted p rest

/-- Key-sorting of rendered pairs (models `sort_keys=True`; Python dict keys
are unique, so ties are immaterial). -/
def sortPairs (l : List (String × String)) : List (String × String) :=
  l.foldr insSorted []

/-- Render one key/value pair of a JSON object. -/
def renderPair (p : String × String) : String :=
  jsonQuote p.1 ++ ": " ++ p.2

mutual

/-- Modelled from the spec: canonical key-sorted serialization of a value
(`json.dumps` with `sort_keys=True`); every object's keys are emitted in
sorted order, arrays in element order. -/
def jsonOfToml : Toml → String
  | .str s => jsonQuote s
  | .arr vs => "[" ++ commaJoin (jsonArrItems vs) ++ "]"
  | .table kvs =>
    "\x7b" ++ commaJoin ((sortPairs (jsonTableItems kvs)).map renderPair) ++ "\x7d"

def jsonArrItems : List Toml → List String
  | [] => []
  | v :: rest => jsonOfToml v :: jsonArrItems rest

def jsonTableItems : List (String × Toml) → List (String × String)
  | [] => []
  | (k, v) :: rest => (k, jsonOfToml v) :: jsonTableItems rest

end

/-- UTF-8 encoding of one character (Python's `str.encode("utf-8")`). -/
def utf8Bytes (c : Char) : List Nat :=
  let n := c.toNat
  if n < 128 then [n]
  else if n < 2048 then [192 + n / 64, 128 + n % 64]
  else if n < 65536 then [224 + n / 4096, 128 + n / 64 % 64, 128 + n % 64]
  else [240 + n / 262144, 128 + n / 4096 % 64, 128 + n / 64 % 64, 128 + n % 64]

/-- UTF-8 bytes of a string. -/
def strToBytes (s : String) : List Nat :=
  (s.data.map utf8Bytes).flatten

/-- The eight 32-bit working words of a SHA-256 state. -/
@[ext]
structure Hash8 where
  a0 : Nat
  a1 : Nat
  a2 : Nat
  a3 : Nat
  a4 : Nat
  a5 : Nat
  a6 : Nat
  a7 : Nat
deriving DecidableEq

/-- Modelled from the spec: the source hashes with `hashlib` (Python standard
library, outside the repository); the spec's default digest is "a 256-bit
cryptographic hash", i.e. SHA-256 (FIPS 180-4), implemented here over `Nat`
with explicit reduction modulo `2 ^ 32`.  Right rotation of a 32-bit word. -/
def rotr32 (x n : Nat) : Nat :=
  ((x >>> n) ||| ((x % 2 ^ n) <<< (32 - n))) % 2 ^ 32

def sha256s0 (x : Nat) : Nat := rotr32 x 7 ^^^ rotr32 x 18 ^^^ (x >>> 3)

def sha256s1 (x : Nat) : Nat := rotr32 x 17 ^^^ rotr32 x 19 ^^^ (x >>> 10)

def sha256S0 (x : Nat) : Nat := rotr32 x 2 ^^^ rotr32 x 13 ^^^ rotr32 x 22

def sha256S1 (x : Nat) : Nat := rotr32 x 6 ^^^ rotr32 x 11 ^^^ rotr32 x 25

def sha256ch (e f g : Nat) : Nat := (e &&& f) ^^^ ((e ^^^ 4294967295) &&& g)

def sha256maj (a b c : Nat) : Nat := (a &&& b) ^^^ (a &&& c) ^^^ (b &&& c)

/-- The SHA-256 round constants (FIPS 180-4, in decimal). -/
def sha256K : List Nat :=
  [1116352408, 1899447441, 3049323471, 3921009573, 961987163, 1508970993,
   2453635748, 2870763221, 3624381080, 310598401, 607225278, 1426881987,
   1925078388, 2162078206, 2614888103, 3248222580, 3835390401, 4022224774,
   264347078, 604807628, 770255983, 1249150122, 1555081692, 1996064986,
   2554220882, 2821834349, 2952996808, 3210313671, 3336571891, 3584528711,
   113926993, 338241895, 666307205, 773529912, 1294757372, 1396182291,
   1695183700, 1986661051, 2177026350, 2456956037, 2730485921, 2820302411,
   3259730800, 3345764771, 3516065817, 3600352804, 4094571909, 275423344,
   430227734, 506948616, 659060556, 883997877, 958139571, 1322822218,
   1537002063, 1747873779, 1955562222, 2024104815, 2227730452, 2361852424,
   2428436474, 2756734187, 3204031479, 3329325298]

/-- Big-endian eight-byte rendering of the message bit length. -/
def be64 (n : Nat) : List Nat :=
  (List.range 8).map (fun i => n >>> (8 * (7 - i)) % 256)

/-- SHA-256 message padding: a `0x80` byte, zero bytes to 56 mod 64, then the
bit length. -/
def sha256pad (msg : List Nat) : List Nat :=
  let z := (120 - (msg.length + 1) % 64) % 64
  msg ++ [128] ++ List.replicate z 0 ++ be64 (msg.length * 8)

/-- Split a byte list into 64-byte chunks. -/
def chunks64 (l : List Nat) : List (List Nat) :=
  if h : l.length = 0 then []
  else l.take 64 :: chunks64 (l.drop 64)
termination_by l.length
decreasing_by
  simp only [List.length_drop]
  exact Nat.sub_lt (Nat.pos_of_ne_zero h) (by decide)

/-- Big-endian 32-bit words from bytes. -/
def be32words : List Nat → List Nat
  | a :: b :: c :: d :: rest => (((a * 256 + b) * 256 + c) * 256 + d) :: be32words rest
  | _ => []

/-- The SHA-256 message schedule: extend sixteen words to sixty-four. -/
def extendW (w : List Nat) : List Nat :=
  (List.range 48).foldl
    (fun w _ =>
      w ++ [(sha256s1 (w.getD (w.length - 2) 0) + w.getD (w.length - 7) 0 +
        sha256s0 (w.getD (w.length - 15) 0) + w.getD (w.length - 16) 0) % 2 ^ 32])
    w

/-- One SHA-256 compression round. -/
def sha256round (w : List Nat) (st : Nat × Nat × Nat × Nat × Nat × Nat × Nat × Nat)
    (i : Nat) : Nat × Nat × Nat × Nat × Nat × Nat × Nat × Nat :=
  let a := st.1
  let b := st.2.1
  let c := st.2.2.1
  let d := st.2.2.2.1
  let e := st.2.2.2.2.1
  let f := st.2.2.2.2.2.1
  let g := st.2.2.2.2.2.2.1
  let h := st.2.2.2.2.2.2.2
  let t1 := (h + sha256S1 e + sha256ch e f g + sha256K.getD i 0 + w.getD i 0) % 2 ^ 32
  let t2 := (sha256S0 a + sha256maj a b c) % 2 ^ 32
  ((t1 + t2) % 2 ^ 32, a, b, c, (d + t1) % 2 ^ 32, e, f, g)

/-- SHA-256 compression of one 64-byte chunk. -/
def compressChunk (h : Hash8) (chunk : List Nat) : Hash8 :=
  let w := extendW (be32words chunk)
  let st := (List.range 64).foldl (sha256round w)
    (h.a0, h.a1, h.a2, h.a3, h.a4, h.a5, h.a6, h.a7)
  ⟨(h.a0 + st.1) % 2 ^ 32, (h.a1 + st.2.1) % 2 ^ 32, (h.a2 + st.2.2.1) % 2 ^ 32,
   (h.a3 + st.2.2.2.1) % 2 ^ 32, (h.a4 + st.2.2.2.2.1) % 2 ^ 32,
   (h.a5 + st.2.2.2.2.2.1) % 2 ^ 32, (h.a6 + st.2.2.2.2.2.2.1) % 2 ^ 32,
   (h.a7 + st.2.2.2.2.2.2.2) % 2 ^ 32⟩

/-- The SHA-256 initial state (FIPS 180-4, in decimal). -/
def sha256init : Hash8 :=
  ⟨1779033703, 3144134277, 1013904242, 2773480762,
   1359893119, 2600822924, 528734635, 1541459225⟩

/-- SHA-256 of a byte list, as eight 32-bit words. -/
def sha256run (msg : List Nat) : Hash8 :=
  (chunks64 (sha256pad msg)).foldl compressChunk sha256init

/-- Eight lowercase hexadecimal digits of a 32-bit word. -/
def hex8 (w : Nat) : List Char :=
  (List.range 8).map (fun i => hexDigitChar (w >>> (4 * (7 - i)) % 16))

/-- The lowercase hexadecimal digest (Python `hasher.hexdigest()`). -/
def hexdigest (h : Hash8) : String :=
  String.mk (hex8 h.a0 ++ hex8 h.a1 ++ hex8 h.a2 ++ hex8 h.a3 ++
    hex8 h.a4 ++ hex8 h.a5 ++ hex8 h.a6 ++ hex8 h.a7)

/-- The six fields tracked by `content_hash` (lines 182-189), read in the
source's order: `tool.pdm.source`, `project.dependencies`, the
`dev_dependencies` merge, `project.optional-dependencies`,
`project.requires-python` and `tool.pdm.resolution` (the `resolution`
property, line 168-172, is `self.settings.get("resolution", {})`). -/
structure TrackedFields where
  sources : Toml
  dependencies : Toml
  devDeps : Except Toml Groups
  optionalDependencies : Toml
  requiresPython : Toml
  resolution : Toml
deriving DecidableEq

/-- Read the six tracked fields of a manifest. -/
def trackedFields (doc : Doc) : TrackedFields :=
  ⟨getValD (settingsView doc) "source" (Toml.arr []),
   getValD (metadataView doc) "dependencies" (Toml.arr []),
   dev_dependencies doc,
   getValD (metadataView doc) "optional-dependencies" (Toml.table []),
   getValD (metadataView doc) "requires-python" (Toml.str ""),
   getValD (settingsView doc) "resolution" (Toml.table [])⟩

/-- The serialized record hashed by `content_hash`: the `dump_data` dict with
its six keys, key-sorted by the serializer.  The merged groups dict is a JSON
object mapping each group name to its entry array. -/
def hashPayload (tf : TrackedFields) (g : Groups) : String :=
  jsonOfToml (Toml.table
    [("sources", tf.sources),
     ("dependencies", tf.dependencies),
     ("dev-dependencies", Toml.table (g.map (fun kv => (kv.1, Toml.arr kv.2)))),
     ("optional-dependencies", tf.optionalDependencies),
     ("requires-python", tf.requiresPython),
     ("resolution", tf.resolution)])

/-- The method `content_hash` (lines 178-193) with the default `sha256`
algorithm: serialize the six tracked fields canonically and return the
lowercase hex digest.  Reading `self.dev_dependencies` can raise
`PdmUsageError`, which propagates out of `content_hash`. -/
def content_hash (doc : Doc) : Except Toml String :=
  match (trackedFields doc).devDeps with
  | .error e => .error e
  | .ok g => .ok (hexdigest (sha256run (strToBytes (hashPayload (trackedFields doc) g))))

/-- Is the value stored at `k` a table? -/
def isTableAt (kvs : Doc) (k : String) : Bool :=
  match lookupKey kvs k with
  | some (.table _) => true
  | _ => false

/-- A modern group value passes the include-group validation: list values
must validate, non-list values are assigned without validation. -/
def entriesOk (avail : List String) : Toml → Bool
  | .arr vs =>
    match validateDeps avail vs with
    | .ok _ => true
    | .error _ => false
  | _ => true

/-- All 32-bit words of a SHA-256 state are in range. -/
def hash8InRange (h : Hash8) : Prop :=
  h.a0 < 2 ^ 32 ∧ h.a1 < 2 ^ 32 ∧ h.a2 < 2 ^ 32 ∧ h.a3 < 2 ^ 32 ∧
  h.a4 < 2 ^ 32 ∧ h.a5 < 2 ^ 32 ∧ h.a6 < 2 ^ 32 ∧ h.a7 < 2 ^ 32

/-- Determinism half of the fingerprint claim: manifests with equal tracked
fields get equal digests. -/
def claimC5Det : Prop :=
  ∀ d1 d2 : Doc, trackedFields d1 = trackedFields d2 → content_hash d1 = content_hash d2

/-- Sensitivity half of the fingerprint claim, instantiated at the
`requires-python` field: changing that one tracked field (all five others
logically equal) changes the digest. -/
def claimC5Sens : Prop :=
  ∀ d1 d2 : Doc,
    (trackedFields d1).sources = (trackedFields d2).sources →
    (trackedFields d1).dependencies = (trackedFields d2).dependencies →
    (trackedFields d1).devDeps = (trackedFields d2).devDeps →
    (trackedFields d1).optionalDependencies = (trackedFields d2).optionalDependencies →
    (trackedFields d1).resolution = (trackedFields d2).resolution →
    (trackedFields d1).requiresPython ≠ (trackedFields d2).requiresPython →
    content_hash d1 ≠ content_hash d2

/-- A family of manifests identical except for the `requires-python` tracked
field: member `n` declares a `requires-python` string of length `n`. -/
def famDoc (n : Nat) : Doc :=
  [("project", Toml.table [("requires-python", Toml.str (String.mk (List.replicate n 'a')))])]

/-- The SHA-256 words behind `content_hash (famDoc n)`. -/
def famHash (n : Nat) : Hash8 :=
  sha256run (strToBytes (hashPayload (trackedFields (famDoc n)) []))

/-- Scenario B of the spec: legacy `test` group plus modern `test` and `new`
groups. -/
def docB : Doc :=
  [("tool", Toml.table [("pdm", Toml.table [("dev-dependencies",
     Toml.table [("test", Toml.arr [Toml.str "pytest>=7.0"])])])]),
   ("dependency-groups", Toml.table
     [("test", Toml.arr [Toml.str "pytest>=8.0"]),
      ("new", Toml.arr [Toml.str "requests"])])]

/-- A manifest whose modern table has two distinct raw keys with the same
normalized name, the second of which holds a dangling cross-reference. -/
def docC2 : Doc :=
  [("dependency-groups", Toml.table
    [("a_b", Toml.arr []),
     ("a-b", Toml.arr [Toml.table [("include-group", Toml.str "missing")]])])]

/-- A manifest with a single modern group holding a dangling
cross-reference. -/
def docC2w : Doc :=
  [("dependency-groups", Toml.table
    [("bad", Toml.arr [Toml.table [("include-group", Toml.str "missing")]])])]

/-- Scenario D of the spec: a modern group referencing an
optional-dependencies group. -/
def docC3 : Doc :=
  [("project", Toml.table [("optional-dependencies",
     Toml.table [("docs", Toml.arr [Toml.str "mkdocs"])])]),
   ("dependency-groups", Toml.table
     [("ci", Toml.arr [Toml.table [("include-group", Toml.str "docs")]])])]

/-- A manifest whose legacy table is non-empty and whose modern table is
absent. -/
def docC4 : Doc :=
  [("tool", Toml.table [("pdm", Toml.table [("dev-dependencies",
     Toml.table [("test", Toml.arr [Toml.str "pytest"])])])])]

/-- A manifest where `tool.pdm` and `project` already exist. -/
def docC7 : Doc :=
  [("tool", Toml.table [("pdm", Toml.table [("a", Toml.str "b")])]),
   ("project", Toml.table [])]

/-- A manifest whose `tool.pdm` table contains only an empty sub-table, so
that cleanup empties `tool.pdm` itself. -/
def docC8 : Doc :=
  [("tool", Toml.table [("pdm", Toml.table [("x", Toml.table [])])])]

/-- A manifest declaring the same group name in all three locations. -/
def docC9 : Doc :=
  [("project", Toml.table [("optional-dependencies",
     Toml.table [("g", Toml.arr [Toml.str "from-optional"])])]),
   ("tool", Toml.table [("pdm", Toml.table [("dev-dependencies",
     Toml.table [("g", Toml.arr [Toml.str "from-legacy"])])])]),
   ("dependency-groups", Toml.table [("g", Toml.arr [Toml.str "from-modern"])])]

/-- A manifest whose modern group is shadowed by a legacy group and contains
a dangling cross-reference. -/
def docC10 : Doc :=
  [("tool", Toml.table [("pdm", Toml.table [("dev-dependencies",
     Toml.table [("foo", Toml.arr [])])])]),
   ("dependency-groups", Toml.table
     [("foo", Toml.arr [Toml.table [("include-group", Toml.str "nowhere")]])])]

/-- Two documents with identical tracked fields but different irrelevant
content. -/
def docC5a : Doc := [("irrelevant", Toml.str "x")]

/-- See `docC5a`. -/
def docC5b : Doc := []

theorem lookupKey_nil {β : Type} (key : String) :
    lookupKey ([] : List (String × β)) key = none := rfl

theorem lookupKey_cons {β : Type} (k : String) (v : β) (rest : List (String × β))
    (key : String) :
    lookupKey ((k, v) :: rest) key = if k == key then some v else lookupKey rest key := rfl

theorem lookupKey_append_some {β : Type} {l1 : List (String × β)} {k : String} {v : β}
    (l2 : List (String × β)) (h : lookupKey l1 k = some v) :
    lookupKey (l1 ++ l2) k = some v := by
  induction l1 with
  | nil => simp [lookupKey_nil] at h
  | cons p rest ih =>
    obtain ⟨k', v'⟩ := p
    rw [List.cons_append, lookupKey_cons] at *
    by_cases hk : (k' == k) = true
    · simpa [hk] using h
    · simp only [hk, if_false] at h ⊢
      exact ih h

theorem lookupKey_append_none {β : Type} {l1 : List (String × β)} {k : String}
    (l2 : List (String × β)) (h : lookupKey l1 k = none) :
    lookupKey (l1 ++ l2) k = lookupKey l2 k := by
  induction l1 with
  | nil => simp
  | cons p rest ih =>
    obtain ⟨k', v'⟩ := p
    rw [lookupKey_cons] at h
    rw [List.cons_append, lookupKey_cons]
    by_cases hk : (k' == k) = true
    · simp [hk] at h
    · simp only [hk, if_false] at h ⊢
      exact ih h

theorem lookupKey_isSome_iff_mem {β : Type} (l : List (String × β)) (k : String) :
    (lookupKey l k).isSome = true ↔ k ∈ l.map Prod.fst := by
  induction l with
  | nil => simp [lookupKey_nil]
  | cons p rest ih =>
    obtain ⟨k', v'⟩ := p
    rw [lookupKey_cons]
    by_cases hk : (k' == k) = true
    · simp [hk, eq_of_beq hk]
    · have hne : k ≠ k' := fun h => hk (by simp [h])
      simp [hk, ih, hne.symm, hne]

theorem lookupKey_eq_none_of_not_mem {β : Type} {l : List (String × β)} {k : String}
    (h : ¬ k ∈ l.map Prod.fst) : lookupKey l k = none := by
  cases hl : lookupKey l k with
  | none => rfl
  | some v =>
    exact absurd ((lookupKey_isSome_iff_mem l k).mp (by simp [hl])) h

theorem hasGroup_iff_mem (g : Groups) (n : String) :
    hasGroup g n = true ↔ n ∈ g.map Prod.fst := by
  unfold hasGroup
  exact lookupKey_isSome_iff_mem g n

theorem hasGroup_append_single_iff {g : Groups} {n : String} {ds : List Toml} {m : String} :
    hasGroup (g ++ [(n, ds)]) m = true ↔ (hasGroup g m = true ∨ m = n) := by
  rw [hasGroup_iff_mem, hasGroup_iff_mem]
  simp

theorem map_fst_extendGroup_present {g : Groups} {n : String} (ds : List Toml)
    (h : hasGroup g n = true) :
    (extendGroup g n ds).map Prod.fst = g.map Prod.fst := by
  unfold extendGroup
  rw [if_pos h, List.map_map]
  apply List.map_congr_left
  intro kv _
  simp only [Function.comp_apply]
  split <;> rfl

theorem map_fst_extendGroup_absent {g : Groups} {n : String} (ds : List Toml)
    (h : hasGroup g n = false) :
    (extendGroup g n ds).map Prod.fst = g.map Prod.fst ++ [n] := by
  unfold extendGroup
  rw [if_neg (by simp [h]), List.map_append]
  rfl

theorem hasGroup_extendGroup_iff {g : Groups} {n : String} {ds : List Toml} {m : String} :
    hasGroup (extendGroup g n ds) m = true ↔ (hasGroup g m = true ∨ m = n) := by
  cases h : hasGroup g n with
  | true =>
    rw [hasGroup_iff_mem, map_fst_extendGroup_present ds h, ← hasGroup_iff_mem]
    constructor
    · exact Or.inl
    · rintro (hm | rfl)
      · exact hm
      · exact h
  | false =>
    rw [hasGroup_iff_mem, map_fst_extendGroup_absent ds h]
    simp [hasGroup_iff_mem]

theorem hasGroup_addLegacyGroup_iff {g : Groups} {p : String × Toml} {m : String} :
    hasGroup (addLegacyGroup g p) m = true ↔
      (hasGroup g m = true ∨ m = normalize_name p.1) := by
  unfold addLegacyGroup
  cases p.2 <;> exact hasGroup_extendGroup_iff

theorem hasGroup_addLegacyAll_iff {l : List (String × Toml)} {acc : Groups} {m : String} :
    hasGroup (addLegacyAll acc l) m = true ↔
      (hasGroup acc m = true ∨ m ∈ l.map (fun p => normalize_name p.1)) := by
  induction l generalizing acc with
  | nil => simp [addLegacyAll]
  | cons p rest ih =>
    unfold addLegacyAll
    rw [ih]
    simp only [List.map_cons, List.mem_cons]
    rw [hasGroup_addLegacyGroup_iff]
    tauto

theorem nodup_extendGroup {g : Groups} {n : String} (ds : List Toml)
    (h : (g.map Prod.fst).Nodup) : ((extendGroup g n ds).map Prod.fst).Nodup := by
  cases hg : hasGroup g n with
  | true => rw [map_fst_extendGroup_present ds hg]; exact h
  | false =>
    rw [map_fst_extendGroup_absent ds hg]
    have hn : ¬ n ∈ g.map Prod.fst := by
      rw [← hasGroup_iff_mem, hg]; simp
    simp [List.nodup_append, h, hn]

theorem nodup_addLegacyAll {l : List (String × Toml)} {acc : Groups}
    (h : (acc.map Prod.fst).Nodup) : ((addLegacyAll acc l).map Prod.fst).Nodup := by
  induction l generalizing acc with
  | nil => exact h
  | cons p rest ih =>
    unfold addLegacyAll
    apply ih
    unfold addLegacyGroup
    cases p.2 <;> exact nodup_extendGroup _ h

theorem addModernGroup_ok_cases {avail : List String} {acc : Groups} {p : String × Toml}
    {acc2 : Groups} (h : addModernGroup avail acc p = .ok acc2) :
    acc2 = acc ∨
      (hasGroup acc (normalize_name p.1) = false ∧
        ∃ ds, acc2 = acc ++ [(normalize_name p.1, ds)]) := by
  unfold addModernGroup at h
  split at h
  · injection h with h
    exact Or.inl h.symm
  · next hcond =>
    have hg : hasGroup acc (normalize_name p.1) = false := by
      cases hb : hasGroup acc (normalize_name p.1)
      · rfl
      · exact absurd hb hcond
    refine Or.inr ⟨hg, ?_⟩
    split at h
    · split at h
      · injection h with h
        exact ⟨_, h.symm⟩
      · exact absurd h (by simp)
    · injection h with h
      exact ⟨_, h.symm⟩
    · injection h with h
      exact ⟨_, h.symm⟩

theorem addModernGroup_error_cases {avail : List String} {acc : Groups}
    {p : String × Toml} {e : Toml} (h : addModernGroup avail acc p = .error e) :
    hasGroup acc (normalize_name p.1) = false ∧
      ∃ vs, p.2 = Toml.arr vs ∧ validateDeps avail vs = .error e := by
  unfold addModernGroup at h
  split at h
  · exact absurd h (by simp)
  · next hcond =>
    have hg : hasGroup acc (normalize_name p.1) = false := by
      cases hb : hasGroup acc (normalize_name p.1)
      · rfl
      · exact absurd hb hcond
    refine ⟨hg, ?_⟩
    split at h
    · next vs hvs =>
      split at h
      · exact absurd h (by simp)
      · next e' hv =>
        injection h with h
        exact ⟨vs, hvs, by rw [hv, h]⟩
    · exact absurd h (by simp)
    · exact absurd h (by simp)

theorem foldGroups_cons (avail : List String) (acc : Groups) (p : String × Toml)
    (rest : List (String × Toml)) :
    foldGroups avail acc (p :: rest) =
      match addModernGroup avail acc p with
      | .ok acc2 => foldGroups avail acc2 rest
      | .error e => .error e := rfl

theorem addModernGroup_skip {avail : List String} {acc : Groups} {p : String × Toml}
    (hg : hasGroup acc (normalize_name p.1) = true) :
    addModernGroup avail acc p = .ok acc := by
  unfold addModernGroup
  rw [if_pos hg]

theorem addModernGroup_arr_eq {avail : List String} {acc : Groups} {gname : String}
    {vs : List Toml} (hg : hasGroup acc (normalize_name gname) = false) :
    addModernGroup avail acc (gname, Toml.arr vs) =
      match validateDeps avail vs with
      | .ok _ => .ok (acc ++ [(normalize_name gname, vs)])
      | .error e => .error e := by
  unfold addModernGroup
  rw [if_neg (by simp [hg])]

theorem addModernGroup_add {avail : List String} {acc : Groups} {p : String × Toml}
    {acc2 : Groups} (hg : hasGroup acc (normalize_name p.1) = false)
    (h : addModernGroup avail acc p = .ok acc2) :
    ∃ ds, acc2 = acc ++ [(normalize_name p.1, ds)] := by
  unfold addModernGroup at h
  rw [if_neg (by simp [hg])] at h
  split at h
  · split at h
    · injection h with h
      exact ⟨_, h.symm⟩
    · exact absurd h (by simp)
  · injection h with h
    exact ⟨_, h.symm⟩
  · injection h with h
    exact ⟨_, h.symm⟩

theorem validateDeps_error_spec {avail : List String} {vs : List Toml} {e : Toml}
    (h : validateDeps avail vs = .error e) :
    memberOfNames e avail = false ∧ ∃ y ∈ vs, isIncludeRef y = some e := by
  induction vs with
  | nil => simp [validateDeps] at h
  | cons d rest ih =>
    unfold validateDeps at h
    split at h
    · next ig hd =>
      split at h
      · obtain ⟨hmem, y, hy, hr⟩ := ih h
        exact ⟨hmem, y, List.mem_cons_of_mem d hy, hr⟩
      · next hmem =>
        injection h with h
        subst h
        refine ⟨?_, d, List.mem_cons_self d rest, hd⟩
        cases hb : memberOfNames ig avail
        · rfl
        · exact absurd hb hmem
    · next hd =>
      obtain ⟨hmem, y, hy, hr⟩ := ih h
      exact ⟨hmem, y, List.mem_cons_of_mem d hy, hr⟩

theorem validateDeps_error_exists {avail : List String} {vs : List Toml} {x ig : Toml}
    (hx : x ∈ vs) (href : isIncludeRef x = some ig)
    (hm : memberOfNames ig avail = false) :
    ∃ e, validateDeps avail vs = .error e := by
  induction vs with
  | nil => exact absurd hx (List.not_mem_nil x)
  | cons d rest ih =>
    unfold validateDeps
    split
    · next ig' hd =>
      split
      · next hmem =>
        rcases List.mem_cons.mp hx with rfl | hx'
        · rw [hd] at href
          injection href with href
          subst href
          rw [hm] at hmem
          exact absurd hmem (by simp)
        · exact ih hx'
      · exact ⟨ig', rfl⟩
    · next hd =>
      rcases List.mem_cons.mp hx with rfl | hx'
      · rw [hd] at href
        exact absurd href (by simp)
      · exact ih hx'

theorem foldGroups_ok_lookup {avail : List String} {l : List (String × Toml)}
    {acc res : Groups} (h : foldGroups avail acc l = .ok res) {n : String}
    (hn : (lookupKey acc n).isSome = true) : lookupKey res n = lookupKey acc n := by
  induction l generalizing acc with
  | nil =>
    unfold foldGroups at h
    injection h with h
    rw [h]
  | cons p rest ih =>
    unfold foldGroups at h
    cases hadd : addModernGroup avail acc p with
    | error e => rw [hadd] at h; exact absurd h (by simp)
    | ok acc2 =>
      rw [hadd] at h
      rcases addModernGroup_ok_cases hadd with rfl | ⟨hg, ds, rfl⟩
      · exact ih h hn
      · obtain ⟨v, hv⟩ := Option.isSome_iff_exists.mp hn
        have happ : lookupKey (acc ++ [(normalize_name p.1, ds)]) n = some v :=
          lookupKey_append_some _ hv
        rw [ih h (by simp [happ]), happ, hv]

theorem foldGroups_error_spec {avail : List String} {l : List (String × Toml)}
    {acc : Groups} {e : Toml} (h : foldGroups avail acc l = .error e) :
    memberOfNames e avail = false ∧
      ∃ p ∈ l, ∃ ws, p.2 = Toml.arr ws ∧ ∃ y ∈ ws, isIncludeRef y = some e := by
  induction l generalizing acc with
  | nil => simp [foldGroups] at h
  | cons p rest ih =>
    unfold foldGroups at h
    cases hadd : addModernGroup avail acc p with
    | ok acc2 =>
      rw [hadd] at h
      obtain ⟨hmem, q, hq, hrest⟩ := ih h
      exact ⟨hmem, q, List.mem_cons_of_mem p hq, hrest⟩
    | error e' =>
      rw [hadd] at h
      injection h with h
      subst h
      obtain ⟨hg, vs, hvs, hval⟩ := addModernGroup_error_cases hadd
      obtain ⟨hmem, y, hy, hr⟩ := validateDeps_error_spec hval
      exact ⟨hmem, p, List.mem_cons_self p rest, vs, hvs, y, hy, hr⟩

theorem foldGroups_ok_of_entriesOk {avail : List String} {l : List (String × Toml)}
    {acc : Groups}
    (h : ∀ p ∈ l, hasGroup acc (normalize_name p.1) = true ∨ entriesOk avail p.2 = true) :
    ∃ res, foldGroups avail acc l = .ok res := by
  induction l generalizing acc with
  | nil => exact ⟨acc, rfl⟩
  | cons p rest ih =>
    unfold foldGroups
    cases hadd : addModernGroup avail acc p with
    | ok acc2 =>
      apply ih
      intro q hq
      rcases h q (List.mem_cons_of_mem p hq) with hg | hok
      · left
        rcases addModernGroup_ok_cases hadd with rfl | ⟨_, ds, rfl⟩
        · exact hg
        · exact hasGroup_append_single_iff.mpr (Or.inl hg)
      · exact Or.inr hok
    | error e =>
      exfalso
      obtain ⟨hg, vs, hvs, hval⟩ := addModernGroup_error_cases hadd
      rcases h p (List.mem_cons_self p rest) with hg' | hok
      · rw [hg] at hg'; exact absurd hg' (by simp)
      · rw [hvs] at hok
        have hok2 : (match validateDeps avail vs with
            | Except.ok _ => true
            | Except.error _ => false) = true := hok
        rw [hval] at hok2
        simp at hok2

theorem foldGroups_error_of_dangling {avail : List String} {acc : Groups}
    {pre post : List (String × Toml)} {gname : String} {vs : List Toml} {x ig : Toml}
    (hx : x ∈ vs) (href : isIncludeRef x = some ig)
    (hm : memberOfNames ig avail = false)
    (hacc : hasGroup acc (normalize_name gname) = false)
    (hpre : ∀ q ∈ pre, normalize_name q.1 ≠ normalize_name gname) :
    ∃ e, foldGroups avail acc (pre ++ (gname, Toml.arr vs) :: post) = .error e := by
  induction pre generalizing acc with
  | nil =>
    rw [List.nil_append]
    obtain ⟨e0, he⟩ := validateDeps_error_exists hx href hm
    refine ⟨e0, ?_⟩
    rw [foldGroups_cons, addModernGroup_arr_eq hacc, he]
  | cons q pre' ih =>
    rw [List.cons_append]
    unfold foldGroups
    cases hadd : addModernGroup avail acc q with
    | error e => exact ⟨e, rfl⟩
    | ok acc2 =>
      rcases addModernGroup_ok_cases hadd with rfl | ⟨hg, ds, rfl⟩
      · exact ih hacc (fun r hr => hpre r (List.mem_cons_of_mem q hr))
      · apply ih
        · cases hacc2 : hasGroup (acc ++ [(normalize_name q.1, ds)]) (normalize_name gname)
          · rfl
          · rcases hasGroup_append_single_iff.mp hacc2 with hc | hc
            · rw [hacc] at hc; exact absurd hc (by simp)
            · exact absurd hc.symm (hpre q (List.mem_cons_self q pre'))
        · exact fun r hr => hpre r (List.mem_cons_of_mem q hr)

theorem foldGroups_ok_lookup_added {avail : List String} {acc res : Groups}
    {pre post : List (String × Toml)} {gname : String} {vs : List Toml}
    (h : foldGroups avail acc (pre ++ (gname, Toml.arr vs) :: post) = .ok res)
    (hacc : hasGroup acc (normalize_name gname) = false)
    (hpre : ∀ q ∈ pre, normalize_name q.1 ≠ normalize_name gname) :
    lookupKey res (normalize_name gname) = some vs := by
  induction pre generalizing acc with
  | nil =>
    rw [List.nil_append, foldGroups_cons, addModernGroup_arr_eq hacc] at h
    cases hv : validateDeps avail vs with
    | error e => rw [hv] at h; exact absurd h (by simp)
    | ok u =>
      rw [hv] at h
      have h2 : foldGroups avail (acc ++ [(normalize_name gname, vs)]) post = .ok res := h
      have hnone : lookupKey acc (normalize_name gname) = none := by
        cases hl : lookupKey acc (normalize_name gname)
        · rfl
        · have hs : hasGroup acc (normalize_name gname) = true := by
            unfold hasGroup
            rw [hl]
            rfl
          exact absurd hs (by simp [hacc])
      have happ : lookupKey (acc ++ [(normalize_name gname, vs)]) (normalize_name gname)
          = some vs := by
        rw [lookupKey_append_none _ hnone, lookupKey_cons]
        simp
      rw [foldGroups_ok_lookup h2 (by simp [happ]), happ]
  | cons q pre' ih =>
    rw [List.cons_append] at h
    unfold foldGroups at h
    cases hadd : addModernGroup avail acc q with
    | error e => rw [hadd] at h; exact absurd h (by simp)
    | ok acc2 =>
      rw [hadd] at h
      rcases addModernGroup_ok_cases hadd with rfl | ⟨hg, ds, rfl⟩
      · exact ih h hacc (fun r hr => hpre r (List.mem_cons_of_mem q hr))
      · apply ih h
        · cases hacc2 : hasGroup (acc ++ [(normalize_name q.1, ds)]) (normalize_name gname)
          · rfl
          · rcases hasGroup_append_single_iff.mp hacc2 with hc | hc
            · rw [hacc] at hc; exact absurd hc (by simp)
            · exact absurd hc.symm (hpre q (List.mem_cons_self q pre'))
        · exact fun r hr => hpre r (List.mem_cons_of_mem q hr)

theorem foldGroups_ok_keys_iff {avail : List String} {l : List (String × Toml)}
    {acc res : Groups} (h : foldGroups avail acc l = .ok res) {n : String} :
    hasGroup res n = true ↔
      (hasGroup acc n = true ∨ n ∈ l.map (fun p => normalize_name p.1)) := by
  induction l generalizing acc with
  | nil =>
    unfold foldGroups at h
    injection h with h
    subst h
    simp
  | cons p rest ih =>
    unfold foldGroups at h
    simp only [List.map_cons, List.mem_cons]
    by_cases hgp : hasGroup acc (normalize_name p.1) = true
    · rw [addModernGroup_skip hgp] at h
      rw [ih h]
      constructor
      · rintro (hy | hy)
        · exact Or.inl hy
        · exact Or.inr (Or.inr hy)
      · rintro (hy | rfl | hy)
        · exact Or.inl hy
        · exact Or.inl hgp
        · exact Or.inr hy
    · have hgp' : hasGroup acc (normalize_name p.1) = false := by
        cases hb : hasGroup acc (normalize_name p.1)
        · rfl
        · exact absurd hb hgp
      cases hadd : addModernGroup avail acc p with
      | error e => rw [hadd] at h; exact absurd h (by simp)
      | ok acc2 =>
        rw [hadd] at h
        obtain ⟨ds, rfl⟩ := addModernGroup_add hgp' hadd
        rw [ih h]
        constructor
        · rintro (hy | hy)
          · rcases hasGroup_append_single_iff.mp hy with hc | rfl
            · exact Or.inl hc
            · exact Or.inr (Or.inl rfl)
          · exact Or.inr (Or.inr hy)
        · rintro (hy | rfl | hy)
          · exact Or.inl (hasGroup_append_single_iff.mpr (Or.inl hy))
          · exact Or.inl (hasGroup_append_single_iff.mpr (Or.inr rfl))
          · exact Or.inr hy

theorem foldGroups_ok_nodup {avail : List String} {l : List (String × Toml)}
    {acc res : Groups} (h : foldGroups avail acc l = .ok res)
    (hacc : (acc.map Prod.fst).Nodup) : (res.map Prod.fst).Nodup := by
  induction l generalizing acc with
  | nil =>
    unfold foldGroups at h
    injection h with h
    subst h
    exact hacc
  | cons p rest ih =>
    unfold foldGroups at h
    cases hadd : addModernGroup avail acc p with
    | error e => rw [hadd] at h; exact absurd h (by simp)
    | ok acc2 =>
      rw [hadd] at h
      rcases addModernGroup_ok_cases hadd with rfl | ⟨hg, ds, rfl⟩
      · exact ih h hacc
      · apply ih h
        rw [List.map_append]
        have hn : ¬ normalize_name p.1 ∈ acc.map Prod.fst := by
          rw [← hasGroup_iff_mem, hg]; simp
        simp [List.nodup_append, hacc, hn]

theorem legacyMerged_hasGroup_false {doc : Doc} {n : String}
    (h : n ∉ (legacyGroups doc).map (fun p => normalize_name p.1)) :
    hasGroup (legacyMerged doc) n = false := by
  cases hb : hasGroup (legacyMerged doc) n
  · rfl
  · exfalso
    have hb' : hasGroup (addLegacyAll [] (legacyGroups doc)) n = true := hb
    rcases hasGroup_addLegacyAll_iff.mp hb' with hc | hc
    · simp [hasGroup, lookupKey] at hc
    · exact h hc

/-- C1: for every manifest in which the same normalized group name appears in
both the legacy table and the modern table, `dev_dependencies` maps that name
to exactly the legacy entries (the accumulated legacy phase result for that
name) and none of the modern entries for that name appear — the merged value
for the name is the legacy-phase value. -/
theorem claimC1_legacy_precedence (doc : Doc) (res : Groups) (n : String)
    (hok : dev_dependencies doc = .ok res)
    (hleg : n ∈ (legacyGroups doc).map (fun p => normalize_name p.1))
    (hmod : n ∈ (modernGroups doc).map (fun p => normalize_name p.1)) :
    lookupKey res n = lookupKey (legacyMerged doc) n ∧
      (lookupKey (legacyMerged doc) n).isSome = true := by
  have hin : hasGroup (legacyMerged doc) n = true := by
    have : hasGroup (addLegacyAll [] (legacyGroups doc)) n = true :=
      hasGroup_addLegacyAll_iff.mpr (Or.inr hleg)
    exact this
  have hok' : foldGroups (availableNames doc) (legacyMerged doc) (modernGroups doc)
      = .ok res := hok
  exact ⟨foldGroups_ok_lookup hok' hin, hin⟩

/-- Witness for C1 at Scenario B of the spec: the `test` group resolves to
the legacy entries only. -/
theorem claimC1_witness :
    lookupKey [("test", [Toml.str "pytest>=7.0"]), ("new", [Toml.str "requests"])] "test"
        = lookupKey (legacyMerged docB) "test" ∧
      (lookupKey (legacyMerged docB) "test").isSome = true :=
  claimC1_legacy_precedence docB
    [("test", [Toml.str "pytest>=7.0"]), ("new", [Toml.str "requests"])] "test"
    (by decide) (by decide) (by decide)

/-- C6: whenever `dev_dependencies` succeeds, its keys are exactly the
normalized names of the legacy and modern groups, each appearing exactly
once. -/
theorem claimC6_merge_completeness (doc : Doc) (res : Groups)
    (hok : dev_dependencies doc = .ok res) :
    (res.map Prod.fst).Nodup ∧
      ∀ n, n ∈ res.map Prod.fst ↔
        (n ∈ (legacyGroups doc).map (fun p => normalize_name p.1) ∨
         n ∈ (modernGroups doc).map (fun p => normalize_name p.1)) := by
  have hok' : foldGroups (availableNames doc) (legacyMerged doc) (modernGroups doc)
      = .ok res := hok
  constructor
  · exact foldGroups_ok_nodup hok' (nodup_addLegacyAll (by simp))
  · intro n
    rw [← hasGroup_iff_mem, foldGroups_ok_keys_iff hok']
    have hiff : hasGroup (legacyMerged doc) n = true ↔
        (hasGroup ([] : Groups) n = true ∨
          n ∈ (legacyGroups doc).map (fun p => normalize_name p.1)) :=
      hasGroup_addLegacyAll_iff
    rw [hiff]
    simp [hasGroup, lookupKey]

/-- Witness for C6 at Scenario B of the spec. -/
theorem claimC6_witness :
    (([("test", [Toml.str "pytest>=7.0"]), ("new", [Toml.str "requests"])] : Groups).map
        Prod.fst).Nodup ∧
      ∀ n, n ∈ (([("test", [Toml.str "pytest>=7.0"]),
            ("new", [Toml.str "requests"])] : Groups).map Prod.fst) ↔
        (n ∈ (legacyGroups docB).map (fun p => normalize_name p.1) ∨
         n ∈ (modernGroups docB).map (fun p => normalize_name p.1)) :=
  claimC6_merge_completeness docB
    [("test", [Toml.str "pytest>=7.0"]), ("new", [Toml.str "requests"])] (by decide)

/-- C2 counterexample: in `docC2` the modern group `a-b` is not shadowed by
any legacy group (the legacy table is empty), it contains the cross-reference
entry `{include-group: missing}`, and `missing` is in neither the legacy nor
the optional-dependencies namespace; yet `dev_dependencies` succeeds, because
the group is skipped without validation: the earlier modern group `a_b`
normalizes to the same name `a-b`.  The claim, which requires a
`GroupReferenceError` here, is false at this manifest. -/
theorem claimC2_counterexample :
    lookupKey (modernGroups docC2) "a-b"
        = some (Toml.arr [Toml.table [("include-group", Toml.str "missing")]]) ∧
      isIncludeRef (Toml.table [("include-group", Toml.str "missing")])
        = some (Toml.str "missing") ∧
      legacyGroups docC2 = [] ∧
      optionalDeps docC2 = [] ∧
      memberOfNames (Toml.str "missing") (availableNames docC2) = false ∧
      dev_dependencies docC2 = .ok [("a-b", [])] := by
  decide

/-- C2 (amended): if some modern group whose normalized name is claimed by
neither a legacy group nor an earlier modern group contains a cross-reference
`{include-group: X}` with `X` in neither the legacy nor the
optional-dependencies namespace, then `dev_dependencies` fails atomically
with an error naming a missing group: the error value is outside the
namespace and is the target of a cross-reference entry of some modern
group. -/
theorem claimC2_amended (doc : Doc) (pre post : List (String × Toml)) (gname : String)
    (vs : List Toml) (x ig : Toml)
    (hsplit : modernGroups doc = pre ++ (gname, Toml.arr vs) :: post)
    (hx : x ∈ vs) (href : isIncludeRef x = some ig)
    (hm : memberOfNames ig (availableNames doc) = false)
    (hleg : normalize_name gname ∉ (legacyGroups doc).map (fun p => normalize_name p.1))
    (hpre : ∀ q ∈ pre, normalize_name q.1 ≠ normalize_name gname) :
    ∃ e, dev_dependencies doc = .error e ∧
      memberOfNames e (availableNames doc) = false ∧
      ∃ p ∈ modernGroups doc, ∃ ws, p.2 = Toml.arr ws ∧
        ∃ y ∈ ws, isIncludeRef y = some e := by
  have hacc : hasGroup (legacyMerged doc) (normalize_name gname) = false :=
    legacyMerged_hasGroup_false hleg
  obtain ⟨e, he⟩ := foldGroups_error_of_dangling hx href hm hacc hpre
  have he2 : foldGroups (availableNames doc) (legacyMerged doc) (modernGroups doc)
      = .error e := by
    rw [hsplit]
    exact he
  have he' : dev_dependencies doc = .error e := he2
  obtain ⟨hmem, hsrc⟩ := foldGroups_error_spec he2
  exact ⟨e, he', hmem, hsrc⟩

/-- Witness for C2 (amended): a single modern group with a dangling
cross-reference makes `dev_dependencies` fail with an error naming a missing
group. -/
theorem claimC2_witness :
    ∃ e, dev_dependencies docC2w = .error e ∧
      memberOfNames e (availableNames docC2w) = false ∧
      ∃ p ∈ modernGroups docC2w, ∃ ws, p.2 = Toml.arr ws ∧
        ∃ y ∈ ws, isIncludeRef y = some e :=
  claimC2_amended docC2w [] []
    "bad" [Toml.table [("include-group", Toml.str "missing")]]
    (Toml.table [("include-group", Toml.str "missing")]) (Toml.str "missing")
    (by decide) (by decide) (by decide) (by decide) (by decide)
    (by intro q hq; exact absurd hq (List.not_mem_nil q))

/-- C3 counterexample: Scenario D of the spec.  The cross-reference entry is
validated but *not* expanded: the merged `ci` group still contains the
`{include-group: docs}` object, not the target's entries, so the merged
result is not `{ci: [mkdocs]}` as the claim requires. -/
theorem claimC3_counterexample :
    dev_dependencies docC3
        = .ok [("ci", [Toml.table [("include-group", Toml.str "docs")]])] ∧
      lookupKey ([("ci", [Toml.table [("include-group", Toml.str "docs")]])] : Groups) "ci"
        ≠ some [Toml.str "mkdocs"] := by
  decide

/-- C3 (amended): when `dev_dependencies` succeeds, a modern group whose
normalized name is claimed by neither a legacy group nor an earlier modern
group contributes its entry list verbatim — cross-reference entries are
validated against the legacy/optional-dependencies namespace but kept as-is,
with no expansion. -/
theorem claimC3_amended (doc : Doc) (res : Groups) (pre post : List (String × Toml))
    (gname : String) (vs : List Toml)
    (hok : dev_dependencies doc = .ok res)
    (hsplit : modernGroups doc = pre ++ (gname, Toml.arr vs) :: post)
    (hleg : normalize_name gname ∉ (legacyGroups doc).map (fun p => normalize_name p.1))
    (hpre : ∀ q ∈ pre, normalize_name q.1 ≠ normalize_name gname) :
    lookupKey res (normalize_name gname) = some vs := by
  have hacc : hasGroup (legacyMerged doc) (normalize_name gname) = false :=
    legacyMerged_hasGroup_false hleg
  have hok' : foldGroups (availableNames doc) (legacyMerged doc)
      (pre ++ (gname, Toml.arr vs) :: post) = .ok res := by
    rw [← hsplit]
    exact hok
  exact foldGroups_ok_lookup_added hok' hacc hpre

/-- Witness for C3 (amended) at Scenario D: the `ci` group keeps the
cross-reference object verbatim. -/
theorem claimC3_witness :
    lookupKey ([("ci", [Toml.table [("include-group", Toml.str "docs")]])] : Groups)
        (normalize_name "ci")
      = some [Toml.table [("include-group", Toml.str "docs")]] :=
  claimC3_amended docC3 [("ci", [Toml.table [("include-group", Toml.str "docs")]])]
    [] [] "ci" [Toml.table [("include-group", Toml.str "docs")]]
    (by decide) (by decide) (by decide)
    (by intro q hq; exact absurd hq (List.not_mem_nil q))

/-- C10: validation is skipped for modern groups shadowed by legacy groups:
if every modern group whose normalized name is *not* claimed by a legacy
group has valid entries, `dev_dependencies` succeeds — shadowed groups never
contribute a `GroupReferenceError`, even when they contain dangling
cross-references. -/
theorem claimC10_shadowed_skips_validation (doc : Doc)
    (h : ∀ p ∈ modernGroups doc,
      normalize_name p.1 ∉ (legacyGroups doc).map (fun q => normalize_name q.1) →
        entriesOk (availableNames doc) p.2 = true) :
    ∃ res, dev_dependencies doc = .ok res := by
  have : ∃ res, foldGroups (availableNames doc) (legacyMerged doc) (modernGroups doc)
      = .ok res := by
    apply foldGroups_ok_of_entriesOk
    intro p hp
    by_cases hmem : normalize_name p.1 ∈ (legacyGroups doc).map (fun q => normalize_name q.1)
    · left
      have : hasGroup (addLegacyAll [] (legacyGroups doc)) (normalize_name p.1) = true :=
        hasGroup_addLegacyAll_iff.mpr (Or.inr hmem)
      exact this
    · exact Or.inr (h p hp hmem)
  exact this

/-- Witness for C10: in `docC10` the modern `foo` group is shadowed by the
legacy `foo` group and contains a cross-reference to a group that exists
nowhere, yet `dev_dependencies` succeeds. -/
theorem claimC10_witness :
    entriesOk (availableNames docC10)
        (Toml.arr [Toml.table [("include-group", Toml.str "nowhere")]]) = false ∧
      ∃ res, dev_dependencies docC10 = .ok res :=
  ⟨by decide, claimC10_shadowed_skips_validation docC10 (by decide)⟩

theorem getTableD_append_ne (doc : Doc) (k k' : String) (v : Toml)
    (hne : (k' == k) = false) :
    getTableD (doc ++ [(k', v)]) k = getTableD doc k := by
  unfold getTableD getValD
  cases ht : lookupKey doc k with
  | some tv => rw [lookupKey_append_some _ ht]
  | none =>
    rw [lookupKey_append_none _ ht, lookupKey_cons, if_neg (by simp [hne])]
    rfl

/-- C4 counterexample: in `docC4` the legacy table is non-empty and the
modern table is absent, yet `dependency_groups` returns a freshly created
empty modern table — not the legacy table as the claim requires (and the
source has no warning or precedence logic at all). -/
theorem claimC4_counterexample :
    legacyGroups docC4 ≠ [] ∧
      lookupKey docC4 "dependency-groups" = none ∧
      (dependency_groups docC4).1 = Toml.table [] ∧
      (dependency_groups docC4).1 ≠ Toml.table (legacyGroups docC4) := by
  decide

/-- C4 (amended): `dependency_groups` always yields the modern-schema
`dependency-groups` value, auto-vivifying an empty table when the key is
absent, regardless of the legacy table; the legacy and modern views of the
document are unchanged by the access, and the key exists afterwards.  No
warning is emitted and the legacy table is never returned. -/
theorem claimC4_amended (doc : Doc) :
    (dependency_groups doc).1 = getValD doc "dependency-groups" (Toml.table []) ∧
      (lookupKey ((dependency_groups doc).2) "dependency-groups").isSome = true ∧
      legacyGroups ((dependency_groups doc).2) = legacyGroups doc ∧
      modernGroups ((dependency_groups doc).2) = modernGroups doc := by
  unfold dependency_groups
  cases h : lookupKey doc "dependency-groups" with
  | some v =>
    refine ⟨?_, ?_, rfl, rfl⟩
    · unfold getValD
      rw [h]
      rfl
    · show (lookupKey doc "dependency-groups").isSome = true
      rw [h]
      rfl
  | none =>
    refine ⟨?_, ?_, ?_, ?_⟩
    · unfold getValD
      rw [h]
      rfl
    · show (lookupKey (doc ++ [("dependency-groups", Toml.table [])])
          "dependency-groups").isSome = true
      rw [lookupKey_append_none _ h, lookupKey_cons]
      simp
    · show legacyGroups (doc ++ [("dependency-groups", Toml.table [])]) = legacyGroups doc
      unfold legacyGroups settingsView
      rw [getTableD_append_ne doc "tool" "dependency-groups" _ (by decide)]
    · show modernGroups (doc ++ [("dependency-groups", Toml.table [])]) = modernGroups doc
      unfold modernGroups getTableD getValD
      rw [lookupKey_append_none _ h, lookupKey_cons, if_pos (by decide), h]
      rfl

theorem setKey_self {kvs : Doc} {k : String} {v : Toml}
    (h : lookupKey kvs k = some v) : setKey kvs k v = kvs := by
  induction kvs with
  | nil => rfl
  | cons p rest ih =>
    obtain ⟨k', v'⟩ := p
    rw [lookupKey_cons] at h
    unfold setKey
    by_cases hk : (k' == k) = true
    · rw [if_pos hk] at h
      injection h with h
      rw [if_pos hk, h]
    · rw [if_neg hk] at h
      rw [if_neg hk, ih h]

theorem isTableAt_spec {kvs : Doc} {k : String} (h : isTableAt kvs k = true) :
    ∃ t, lookupKey kvs k = some (Toml.table t) := by
  unfold isTableAt at h
  split at h
  · next t ht => exact ⟨t, ht⟩
  · exact absurd h (by simp)

/-- C7 counterexample: on the empty manifest, merely reading the `settings`
accessor creates the intermediate `tool` and `tool.pdm` tables — the
document is mutated by a read, contradicting the claim that no intermediate
tables are created. -/
theorem claimC7_counterexample :
    (settingsState []).1 = [] ∧
      (settingsState []).2 = [("tool", Toml.table [("pdm", Toml.table [])])] ∧
      (settingsState []).2 ≠ [] := by
  decide

/-- C7 (amended): reading an absent nested table through the value views
yields an empty table, and the `settings`/`metadata` accessors return
exactly those views; when the `tool.pdm` and `project` tables already exist
the accessors leave the document unchanged — but when they are missing, the
accessors auto-vivify them (see the counterexample), so reads are not
mutation-free in general. -/
theorem claimC7_amended (doc : Doc)
    (h1 : isTableAt doc "tool" = true)
    (h2 : isTableAt (getTableD doc "tool") "pdm" = true)
    (h3 : isTableAt doc "project" = true) :
    (settingsState doc).1 = settingsView doc ∧ (settingsState doc).2 = doc ∧
      (metadataState doc).1 = metadataView doc ∧ (metadataState doc).2 = doc := by
  obtain ⟨t, ht⟩ := isTableAt_spec h1
  have ht' : getTableD doc "tool" = t := by
    unfold getTableD getValD
    rw [ht]
    rfl
  have h2' : isTableAt t "pdm" = true := by rw [← ht']; exact h2
  obtain ⟨p, hp⟩ := isTableAt_spec h2'
  obtain ⟨m, hm⟩ := isTableAt_spec h3
  refine ⟨?_, ?_, ?_, ?_⟩
  · simp [settingsState, settingsView, getTableD, getValD, asTable, ht, hp]
  · simp [settingsState, ht, hp]
  · simp [metadataState, metadataView, getTableD, getValD, asTable, hm]
  · simp [metadataState, hm]

/-- Witness for C7 (amended) at a manifest where `tool.pdm` and `project`
already exist. -/
theorem claimC7_witness :
    (settingsState docC7).1 = settingsView docC7 ∧ (settingsState docC7).2 = docC7 ∧
      (metadataState docC7).1 = metadataView docC7 ∧ (metadataState docC7).2 = docC7 :=
  claimC7_amended docC7 (by decide) (by decide) (by decide)

/-- C8 counterexample: `write`'s cleanup runs *inside* the `project` and
`tool.pdm` subtrees, so a `tool.pdm` table that becomes empty is itself left
in place: after normalizing `docC8`, the document still contains an empty
`[tool.pdm]` — the vestigial empty section the claim says cannot remain. -/
theorem claimC8_counterexample :
    writeNormalize docC8 = [("tool", Toml.table [("pdm", Toml.table [])])] ∧
      lookupKey (getTableD (writeNormalize docC8) "tool") "pdm"
        = some (Toml.table []) := by
  simp [writeNormalize, cleanAtProject, cleanAtToolPdm, remove_empty_tables, docC8,
    getTableD, getValD, asTable, lookupKey]

/-- C8 (amended): within any subtree processed by `_remove_empty_tables`, no
nested table is empty after the pass — but the processed subtree's root
itself is not removed even when it becomes empty. -/
theorem claimC8_amended (kvs : Doc) :
    noEmptyTables (remove_empty_tables kvs) = true := by
  induction kvs using remove_empty_tables.induct with
  | case1 => simp [remove_empty_tables, noEmptyTables]
  | case2 k sub rest hemp ih1 ih2 =>
    rw [remove_empty_tables, if_pos hemp]
    exact ih2
  | case3 k sub rest hemp ih1 ih2 =>
    rw [remove_empty_tables, if_neg hemp]
    unfold noEmptyTables
    simp only [Bool.and_eq_true]
    refine ⟨⟨?_, ?_⟩, ?_⟩
    · cases hb : (remove_empty_tables sub).isEmpty
      · simp
      · exact absurd hb hemp
    · exact ih1
    · exact ih2
  | case4 k v rest hnt ih =>
    cases v with
    | str s => simp [remove_empty_tables, noEmptyTables, ih]
    | arr vs => simp [remove_empty_tables, noEmptyTables, ih]
    | table t => exact absurd rfl (hnt t)

/-- C9: `get_dependency_group_safe` looks the exact (non-normalized) name up
in priority order — `optional-dependencies`, then the legacy table, then the
modern table — returning the first match's entries, and an empty list when
the name is found nowhere. -/
theorem claimC9_lookup_priority (doc : Doc) (name : String) :
    (∀ v, lookupKey (optionalDeps doc) name = some v →
      get_dependency_group_safe doc name = v) ∧
    (∀ v, lookupKey (optionalDeps doc) name = none →
      lookupKey (legacyGroups doc) name = some v →
      get_dependency_group_safe doc name = v) ∧
    (∀ v, lookupKey (optionalDeps doc) name = none →
      lookupKey (legacyGroups doc) name = none →
      lookupKey (modernGroups doc) name = some v →
      get_dependency_group_safe doc name = v) ∧
    (lookupKey (optionalDeps doc) name = none →
      lookupKey (legacyGroups doc) name = none →
      lookupKey (modernGroups doc) name = none →
      get_dependency_group_safe doc name = Toml.arr []) := by
  refine ⟨?_, ?_, ?_, ?_⟩
  · intro v hv
    unfold get_dependency_group_safe
    rw [hv]
  · intro v h0 hv
    unfold get_dependency_group_safe
    rw [h0, hv]
  · intro v h0 h1 hv
    unfold get_dependency_group_safe
    rw [h0, h1, hv]
  · intro h0 h1 h2
    unfold get_dependency_group_safe
    rw [h0, h1, h2]

/-- Witness for C9: with the same name in all three locations the
optional-dependencies entry wins, and an unknown name yields an empty
list. -/
theorem claimC9_witness :
    get_dependency_group_safe docC9 "g" = Toml.arr [Toml.str "from-optional"] ∧
      get_dependency_group_safe docC9 "absent" = Toml.arr [] :=
  ⟨(claimC9_lookup_priority docC9 "g").1 (Toml.arr [Toml.str "from-optional"]) (by decide),
   (claimC9_lookup_priority docC9 "absent").2.2.2 (by decide) (by decide) (by decide)⟩

theorem famDev (n : Nat) : dev_dependencies (famDoc n) = .ok [] := rfl

theorem famRP (n : Nat) :
    (trackedFields (famDoc n)).requiresPython
      = Toml.str (String.mk (List.replicate n 'a')) := rfl

theorem famContent (n : Nat) :
    content_hash (famDoc n) = .ok (hexdigest (famHash n)) := by
  have hdev : (trackedFields (famDoc n)).devDeps = Except.ok ([] : Groups) := famDev n
  unfold content_hash
  rw [hdev]
  rfl

theorem compressChunk_inRange (h : Hash8) (c : List Nat) :
    hash8InRange (compressChunk h c) := by
  unfold hash8InRange compressChunk
  refine ⟨?_, ?_, ?_, ?_, ?_, ?_, ?_, ?_⟩ <;> exact Nat.mod_lt _ (by positivity)

theorem foldl_compress_inRange (l : List (List Nat)) (h : Hash8)
    (hh : hash8InRange h) : hash8InRange (l.foldl compressChunk h) := by
  induction l generalizing h with
  | nil => exact hh
  | cons c rest ih =>
    rw [List.foldl_cons]
    exact ih _ (compressChunk_inRange h c)

theorem sha256run_inRange (msg : List Nat) : hash8InRange (sha256run msg) := by
  apply foldl_compress_inRange
  unfold hash8InRange sha256init
  norm_num

theorem famHash_inRange (n : Nat) : hash8InRange (famHash n) :=
  sha256run_inRange _

/-- Infinitely many manifests map to finitely many 256-bit digests, so two
members of the family collide. -/
theorem famCollision : ∃ a b : Nat, a ≠ b ∧ famHash a = famHash b := by
  obtain ⟨a, b, hab, heq⟩ := Finite.exists_ne_map_eq_of_infinite
    (fun n : Nat =>
      ((⟨(famHash n).a0, (famHash_inRange n).1⟩ : Fin (2 ^ 32)),
       (⟨(famHash n).a1, (famHash_inRange n).2.1⟩ : Fin (2 ^ 32)),
       (⟨(famHash n).a2, (famHash_inRange n).2.2.1⟩ : Fin (2 ^ 32)),
       (⟨(famHash n).a3, (famHash_inRange n).2.2.2.1⟩ : Fin (2 ^ 32)),
       (⟨(famHash n).a4, (famHash_inRange n).2.2.2.2.1⟩ : Fin (2 ^ 32)),
       (⟨(famHash n).a5, (famHash_inRange n).2.2.2.2.2.1⟩ : Fin (2 ^ 32)),
       (⟨(famHash n).a6, (famHash_inRange n).2.2.2.2.2.2.1⟩ : Fin (2 ^ 32)),
       (⟨(famHash n).a7, (famHash_inRange n).2.2.2.2.2.2.2⟩ : Fin (2 ^ 32))))
  refine ⟨a, b, hab, ?_⟩
  apply Hash8.ext
  · exact congrArg (fun q => q.1.1) heq
  · exact congrArg (fun q => q.2.1.1) heq
  · exact congrArg (fun q => q.2.2.1.1) heq
  · exact congrArg (fun q => q.2.2.2.1.1) heq
  · exact congrArg (fun q => q.2.2.2.2.1.1) heq
  · exact congrArg (fun q => q.2.2.2.2.2.1.1) heq
  · exact congrArg (fun q => q.2.2.2.2.2.2.1.1) heq
  · exact congrArg (fun q => q.2.2.2.2.2.2.2.1) heq

/-- C5 counterexample: the claim's sensitivity half cannot hold.  The family
`famDoc` varies only the `requires-python` tracked field, yet the 256-bit
digest takes finitely many values, so by the pigeonhole principle two
manifests with different tracked fields share a digest; together with the
(true) determinism half this refutes the claim as stated. -/
theorem claimC5_counterexample : ¬ (claimC5Det ∧ claimC5Sens) := by
  rintro ⟨-, hsens⟩
  obtain ⟨a, b, hab, hfh⟩ := famCollision
  have hch : content_hash (famDoc a) = content_hash (famDoc b) := by
    rw [famContent a, famContent b, hfh]
  have hdev : (trackedFields (famDoc a)).devDeps = (trackedFields (famDoc b)).devDeps := by
    have ha : (trackedFields (famDoc a)).devDeps = Except.ok ([] : Groups) := famDev a
    have hb : (trackedFields (famDoc b)).devDeps = Except.ok ([] : Groups) := famDev b
    exact ha.trans hb.symm
  have hrp : (trackedFields (famDoc a)).requiresPython
      ≠ (trackedFields (famDoc b)).requiresPython := by
    rw [famRP, famRP]
    intro hcontra
    apply hab
    have h1 : String.mk (List.replicate a 'a') = String.mk (List.replicate b 'a') := by
      injection hcontra
    have h2 : List.replicate a 'a' = List.replicate b 'a' := congrArg String.data h1
    have h3 := congrArg List.length h2
    simpa using h3
  exact hsens (famDoc a) (famDoc b) rfl rfl hdev rfl rfl hrp hch

/-- C5 (amended): `content_hash` is deterministic over the six tracked
fields — any two manifests whose tracked fields are equal receive the same
digest, regardless of all other content of the documents. -/
theorem claimC5_amended (d1 d2 : Doc) (h : trackedFields d1 = trackedFields d2) :
    content_hash d1 = content_hash d2 := by
  unfold content_hash
  rw [h]

/-- Witness for C5 (amended): two documents differing in untracked content
have equal tracked fields and equal digests. -/
theorem claimC5_witness :
    trackedFields docC5a = trackedFields docC5b ∧
      content_hash docC5a = content_hash docC5b :=
  ⟨rfl, claimC5_amended docC5a docC5b rfl⟩
